import Mathlib

/-!
Shallow embedding of `src/databricks-provider.ts`.

JavaScript strings are modelled as `List Char`.  The module's behaviour is
three functions:

* `createDatabricksFetch` (lines 37-56): a fetch wrapper that converts its
  input (a string, a `URL` object, or a request object exposing `.url`) to a
  URL string, replaces the first occurrence of `/chat/completions` with
  `/invocations` when present, and issues exactly one underlying fetch with
  the (possibly rewritten) URL and the caller's options.
* `createDatabricksProvider` (lines 79-91): strips a trailing
  `/invocations` or `/invocations/` from `baseURL` (the regex
  `\/invocations\/?$`), and calls the external OpenAI-compatible factory
  with `name: config.name || 'databricks'`, the cleaned base URL, the API
  key, the headers and the custom fetch.
* `createDatabricksProviderFromEnv` (lines 107-124): reads `API_KEY` and
  `BASE_URL` from the environment, throws when either is falsy (absent or
  the empty string), and otherwise delegates to `createDatabricksProvider`.
-/

namespace Databricks

/-- The literal `'/chat/completions'` searched for on line 50. -/
def chatCompletions : List Char := "/chat/completions".data

/-- The literal `'/invocations'` substituted on line 51 (and the suffix the
regex on line 81 strips). -/
def invocations : List Char := "/invocations".data

/-- The suffix `'/invocations/'`, the longer alternative matched by the
regex `\/invocations\/?$` on line 81. -/
def invocationsSlash : List Char := "/invocations/".data

/-- JavaScript `url.includes(pat)`: does `pat` occur as a contiguous
substring? -/
def hasSub (pat : List Char) : List Char → Bool
  | [] => pat.isEmpty
  | c :: cs => pat.isPrefixOf (c :: cs) || hasSub pat cs

/-- JavaScript `url.replace(pat, repl)` with a string pattern: replace the
first (leftmost) occurrence of `pat` only.  (For the empty input the
nonempty patterns used in this module never match, so `[]` is returned.) -/
def replaceFirst (pat repl : List Char) : List Char → List Char
  | [] => []
  | c :: cs =>
    if pat.isPrefixOf (c :: cs) then repl ++ (c :: cs).drop pat.length
    else c :: replaceFirst pat repl cs

/-- Number of positions at which `pat` occurs in the list (used to state
how many occurrences of `/chat/completions` a URL contains). -/
def countSub (pat : List Char) : List Char → Nat
  | [] => 0
  | c :: cs => (if pat.isPrefixOf (c :: cs) then 1 else 0) + countSub pat cs

/-- The URL transform of lines 50-52: if the URL contains
`/chat/completions`, replace its first occurrence with `/invocations`;
otherwise keep the URL. -/
def rewriteUrl (url : List Char) : List Char :=
  if hasSub chatCompletions url then replaceFirst chatCompletions invocations url
  else url

/-- The `RequestInfo | URL` input of the fetch wrapper: a plain string, a
`URL` object (carrying its string form), or a request object exposing a
`.url` string (lines 40-47). -/
inductive RequestInfo where
  | str (s : List Char)
  | url (u : List Char)
  | req (u : List Char)

/-- Lines 40-47: convert the input to a URL string (`input`,
`input.toString()`, or `input.url`). -/
def inputToUrl : RequestInfo → List Char
  | .str s => s
  | .url u => u
  | .req u => u

/-- Lines 37-56: the fetch wrapper returned by `createDatabricksFetch`.
The ambient global `fetch` is passed explicitly as `fetch_`; `Init` is the
(opaque) type of request options and `Resp` the result type of the
underlying fetch.  The wrapper computes the URL string of its input,
rewrites `/chat/completions` to `/invocations` when present, and performs
the single underlying call `fetch_(url, init)`. -/
def createDatabricksFetch {Init Resp : Type} (fetch_ : List Char → Option Init → Resp) :
    RequestInfo → Option Init → Resp :=
  fun input init =>
    let url : List Char := inputToUrl input
    let url : List Char :=
      if hasSub chatCompletions url then replaceFirst chatCompletions invocations url
      else url
    fetch_ url init

/-- The `DatabricksProviderConfig` interface (lines 10-32).  Optional
fields are `Option`; an absent field is `none` and a present-but-empty
string is `some []`. -/
structure DatabricksProviderConfig where
  baseURL : List Char
  apiKey : List Char
  headers : Option (List (List Char × List Char)) := none
  name : Option (List Char) := none

/-- Line 81: `config.baseURL.replace(/\/invocations\/?$/, '')`.  The regex
matches a trailing `/invocations` optionally followed by `/`, anchored at
the end; the match (necessarily a suffix) is removed.  The two possible
suffixes cannot both match, and the greedy `\/?` takes the slash when it
is there. -/
def cleanBaseURL (b : List Char) : List Char :=
  if invocationsSlash.isSuffixOf b then b.take (b.length - invocationsSlash.length)
  else if invocations.isSuffixOf b then b.take (b.length - invocations.length)
  else b

/-- The argument record handed to the external `createOpenAICompatible`
factory (lines 84-90).  The provider object is opaque, so it is modelled
by exactly what this module passes to the factory; the injected transport
is represented by its URL transform. -/
structure OpenAICompatibleArgs where
  name : List Char
  baseURL : List Char
  apiKey : List Char
  headers : Option (List (List Char × List Char))
  fetchRewrite : List Char → List Char

/-- Lines 79-91: clean the base URL, default the name with
`config.name || 'databricks'` (JavaScript `||` also replaces the empty
string), and call the external factory. -/
def createDatabricksProvider (config : DatabricksProviderConfig) : OpenAICompatibleArgs :=
  { name := match config.name with
      | none => "databricks".data
      | some n => if n = [] then "databricks".data else n
    baseURL := cleanBaseURL config.baseURL
    apiKey := config.apiKey
    headers := config.headers
    fetchRewrite := rewriteUrl }

/-- The two environment variables read on lines 108-109; `none` models an
unset variable and `some []` a variable set to the empty string. -/
structure Env where
  API_KEY : Option (List Char)
  BASE_URL : Option (List Char)

/-- Lines 107-124: `createDatabricksProviderFromEnv`.  A thrown `Error` is
modelled as `Except.error` carrying the message; the falsy test `!API_KEY`
is true exactly for an unset or empty variable. -/
def createDatabricksProviderFromEnv (env : Env) (name : Option (List Char)) :
    Except (List Char) OpenAICompatibleArgs :=
  match env.API_KEY with
  | none => .error "API_KEY environment variable is required".data
  | some k =>
    if k = [] then .error "API_KEY environment variable is required".data
    else
      match env.BASE_URL with
      | none => .error "BASE_URL environment variable is required".data
      | some b =>
        if b = [] then .error "BASE_URL environment variable is required".data
        else .ok (createDatabricksProvider { baseURL := b, apiKey := k, name := name })

/-! ### Helper lemmas about substring search and replacement -/

theorem isPrefixOf_iff_exists {pat l : List Char} :
    pat.isPrefixOf l = true ↔ ∃ t, l = pat ++ t := by
  induction pat generalizing l with
  | nil =>
    constructor
    · intro _; exact ⟨l, (List.nil_append l).symm⟩
    · intro _; cases l <;> rfl
  | cons p ps ih =>
    cases l with
    | nil =>
      constructor
      · intro h; simp [List.isPrefixOf] at h
      · rintro ⟨t, ht⟩; simp at ht
    | cons c cs =>
      simp only [List.isPrefixOf, Bool.and_eq_true, beq_iff_eq, ih, List.cons_append,
        List.cons.injEq]
      constructor
      · rintro ⟨rfl, t, rfl⟩; exact ⟨t, rfl, rfl⟩
      · rintro ⟨t, rfl, rfl⟩; exact ⟨rfl, t, rfl⟩

theorem isPrefixOf_append_right {pat l b : List Char} (h : pat.isPrefixOf l = true) :
    pat.isPrefixOf (l ++ b) = true := by
  obtain ⟨t, rfl⟩ := isPrefixOf_iff_exists.mp h
  exact isPrefixOf_iff_exists.mpr ⟨t ++ b, by simp⟩

theorem isSuffixOf_iff_exists {pat l : List Char} :
    pat.isSuffixOf l = true ↔ ∃ w, l = w ++ pat := by
  show pat.reverse.isPrefixOf l.reverse = true ↔ _
  rw [isPrefixOf_iff_exists]
  constructor
  · rintro ⟨t, ht⟩
    refine ⟨t.reverse, ?_⟩
    have := congrArg List.reverse ht
    simpa using this
  · rintro ⟨w, rfl⟩
    exact ⟨w.reverse, by simp⟩

theorem hasSub_iff_exists {pat l : List Char} :
    hasSub pat l = true ↔ ∃ x y, l = x ++ pat ++ y := by
  induction l with
  | nil =>
    simp only [hasSub, List.isEmpty_iff]
    constructor
    · rintro rfl; exact ⟨[], [], rfl⟩
    · rintro ⟨x, y, hxy⟩
      rcases List.append_eq_nil.mp (List.append_eq_nil.mp hxy.symm).1 with ⟨-, h⟩
      exact h
  | cons c cs ih =>
    simp only [hasSub, Bool.or_eq_true, ih]
    constructor
    · rintro (h | ⟨x, y, rfl⟩)
      · obtain ⟨t, ht⟩ := isPrefixOf_iff_exists.mp h
        exact ⟨[], t, by simpa using ht⟩
      · exact ⟨c :: x, y, rfl⟩
    · rintro ⟨x, y, hxy⟩
      cases x with
      | nil =>
        left
        exact isPrefixOf_iff_exists.mpr ⟨y, by simpa using hxy⟩
      | cons x0 xs =>
        right
        rw [List.cons_append, List.cons_append] at hxy
        injection hxy with _ h
        exact ⟨xs, y, h⟩

theorem hasSub_append_left {pat x l : List Char} (h : hasSub pat x = true) :
    hasSub pat (x ++ l) = true := by
  obtain ⟨a, b, rfl⟩ := hasSub_iff_exists.mp h
  exact hasSub_iff_exists.mpr ⟨a, b ++ l, by simp⟩

theorem countSub_append_le {pat : List Char} (a b : List Char) :
    countSub pat a + countSub pat b ≤ countSub pat (a ++ b) := by
  induction a with
  | nil => simp [countSub]
  | cons c cs ih =>
    have hco : (c :: cs) ++ b = c :: (cs ++ b) := List.cons_append c cs b
    rw [hco]
    simp only [countSub]
    have hmono : (if pat.isPrefixOf (c :: cs) then 1 else 0) ≤
        (if pat.isPrefixOf (c :: (cs ++ b)) then 1 else 0) := by
      by_cases h : pat.isPrefixOf (c :: cs) = true
      · have h2 := @isPrefixOf_append_right pat (c :: cs) b h
        rw [hco] at h2
        rw [if_pos h, if_pos h2]
      · simp [h]
    omega

theorem countSub_self_pos {pat : List Char} (h : pat ≠ []) : 1 ≤ countSub pat pat := by
  cases pat with
  | nil => exact absurd rfl h
  | cons p ps =>
    have hself : (p :: ps).isPrefixOf (p :: ps) = true :=
      isPrefixOf_iff_exists.mpr ⟨[], by simp⟩
    simp [countSub, hself]

theorem countSub_of_decomp {pat x y l : List Char} (hpat : pat ≠ [])
    (h : l = x ++ pat ++ y) :
    1 + countSub pat x + countSub pat y ≤ countSub pat l := by
  subst h
  have h1 := @countSub_append_le pat x (pat ++ y)
  have h2 := @countSub_append_le pat pat y
  have h3 := countSub_self_pos hpat
  rw [List.append_assoc]
  omega

theorem hasSub_count_pos {pat l : List Char} (hpat : pat ≠ []) (h : hasSub pat l = true) :
    1 ≤ countSub pat l := by
  obtain ⟨x, y, rfl⟩ := hasSub_iff_exists.mp h
  have := @countSub_of_decomp pat x y (x ++ pat ++ y) hpat rfl
  omega

theorem replaceFirst_decomp {pat repl l : List Char} (hpat : pat ≠ [])
    (h : hasSub pat l = true) :
    ∃ x y, l = x ++ pat ++ y ∧ replaceFirst pat repl l = x ++ repl ++ y ∧
      ∀ x' y', l = x' ++ pat ++ y' → x.length ≤ x'.length := by
  induction l with
  | nil =>
    exfalso
    simp only [hasSub, List.isEmpty_iff] at h
    exact hpat h
  | cons c cs ih =>
    by_cases hpre : pat.isPrefixOf (c :: cs) = true
    · obtain ⟨t, ht⟩ := isPrefixOf_iff_exists.mp hpre
      refine ⟨[], t, by simpa using ht, ?_, fun _ _ _ => Nat.zero_le _⟩
      show replaceFirst pat repl (c :: cs) = [] ++ repl ++ t
      simp only [replaceFirst, List.nil_append]
      rw [if_pos hpre, ht, List.drop_left]
    · have hcs : hasSub pat cs = true := by
        have := h
        simp only [hasSub, Bool.or_eq_true] at this
        rcases this with h' | h'
        · exact absurd h' hpre
        · exact h'
      obtain ⟨x, y, hxy, hrw, hmin⟩ := ih hcs
      refine ⟨c :: x, y, by simp [hxy], ?_, ?_⟩
      · simp only [replaceFirst, if_neg hpre, hrw, List.cons_append]
      · rintro x' y' hx'
        cases x' with
        | nil =>
          exfalso
          exact hpre (isPrefixOf_iff_exists.mpr ⟨y', by simpa using hx'⟩)
        | cons c' xs' =>
          rw [List.cons_append, List.cons_append] at hx'
          injection hx' with _ htail
          have := hmin xs' y' htail
          simp only [List.length_cons]
          omega

theorem prefix_of_append_split {t a b r : List Char} (h : t ++ r = a ++ b) :
    (∃ r', a = t ++ r') ∨ ∃ t', t = a ++ t' ∧ ∃ r', b = t' ++ r' := by
  rcases List.append_eq_append_iff.mp h with ⟨a', ha', hb'⟩ | ⟨c', hc', hd'⟩
  · exact Or.inl ⟨a', ha'⟩
  · exact Or.inr ⟨c', hc', r, hd'⟩

theorem hasSub_append_cases {pat a b : List Char} (h : hasSub pat (a ++ b) = true) :
    hasSub pat a = true ∨ hasSub pat b = true ∨
      ∃ s t, pat = s ++ t ∧ s ≠ [] ∧ t ≠ [] ∧ (∃ w, a = w ++ s) ∧ ∃ r, b = t ++ r := by
  obtain ⟨x, y, hxy⟩ := hasSub_iff_exists.mp h
  rw [List.append_assoc] at hxy
  rcases List.append_eq_append_iff.mp hxy with ⟨a', _, hb'⟩ | ⟨c', hc', hd'⟩
  · -- x = a ++ a' and b = a' ++ (pat ++ y) : the occurrence lies inside b
    right; left
    exact hasSub_iff_exists.mpr ⟨a', y, by simp [hb']⟩
  · -- a = x ++ c' and pat ++ y = c' ++ b
    rcases List.append_eq_append_iff.mp hd' with ⟨d, hd, _⟩ | ⟨e, he, hb⟩
    · -- c' = pat ++ d : the occurrence lies inside a
      left
      exact hasSub_iff_exists.mpr ⟨x, d, by simp [hc', hd]⟩
    · -- pat = c' ++ e and b = e ++ y : the occurrence straddles the border
      cases c' with
      | nil =>
        right; left
        simp only [List.nil_append] at he
        exact hasSub_iff_exists.mpr ⟨[], y, by simp [hb, he]⟩
      | cons c0 cs0 =>
        cases e with
        | nil =>
          left
          rw [List.append_nil] at he
          exact hasSub_iff_exists.mpr ⟨x, [], by simp [hc', he]⟩
        | cons e0 es0 =>
          right; right
          exact ⟨c0 :: cs0, e0 :: es0, he, by simp, by simp, ⟨x, hc'⟩, ⟨y, hb⟩⟩

/-! ### Concrete facts about the two literals -/

theorem hasSub_cc_inv : hasSub chatCompletions invocations = false := by decide

theorem hasSub_inv_cc : hasSub invocations chatCompletions = false := by decide

theorem length_invocations : invocations.length = 12 := by decide

theorem length_chatCompletions : chatCompletions.length = 17 := by decide

theorem drop_inv_notPre_cc :
    ∀ j, j < 12 → ((invocations.drop j).isPrefixOf chatCompletions) = false := by decide

theorem drop_cc_notPre_inv :
    ∀ k, k < 17 → k = 0 ∨ ((chatCompletions.drop k).isPrefixOf invocations) = false := by decide

/-- After replacing an occurrence of `/chat/completions` by `/invocations`,
no occurrence of `/chat/completions` remains, provided the surrounding
pieces contained none: the replacement string cannot contain, start or end
an occurrence of the pattern. -/
theorem no_occurrence_after_rewrite {x y : List Char}
    (hx : countSub chatCompletions x = 0) (hy : countSub chatCompletions y = 0) :
    hasSub chatCompletions (x ++ invocations ++ y) = false := by
  cases hcase : hasSub chatCompletions (x ++ invocations ++ y) with
  | false => rfl
  | true =>
    exfalso
    rw [List.append_assoc] at hcase
    rcases hasSub_append_cases hcase with hin_x | hrest | ⟨s, t, he, hs0, ht0, ⟨w, hw⟩, ⟨r, hr⟩⟩
    · have := hasSub_count_pos (by decide) hin_x
      omega
    · rcases hasSub_append_cases hrest with hin_inv | hin_y | ⟨s, t, he, hs0, _, ⟨w, hw⟩, _⟩
      · exact absurd hin_inv (by rw [hasSub_cc_inv]; decide)
      · have := hasSub_count_pos (by decide) hin_y
        omega
      · -- a suffix of `/invocations` would have to begin the pattern
        have hs : invocations.drop w.length = s := by rw [hw]; exact List.drop_left w s
        have hwlen : w.length < 12 := by
          have := congrArg List.length hw
          rw [length_invocations] at this
          have hspos : 0 < s.length := List.length_pos.mpr hs0
          simp only [List.length_append] at this
          omega
        have hpre : s.isPrefixOf chatCompletions = true :=
          isPrefixOf_iff_exists.mpr ⟨t, he⟩
        have hcontra := drop_inv_notPre_cc w.length hwlen
        rw [hs, hpre] at hcontra
        exact absurd hcontra (by decide)
    · -- the occurrence starts inside `x` and continues into the rest
      have ht : chatCompletions.drop s.length = t := by rw [he]; exact List.drop_left s t
      have hlen := congrArg List.length he
      rw [length_chatCompletions] at hlen
      simp only [List.length_append] at hlen
      have hspos : 0 < s.length := List.length_pos.mpr hs0
      have htpos : 0 < t.length := List.length_pos.mpr ht0
      rcases prefix_of_append_split hr.symm with ⟨r', hr'⟩ | ⟨t', ht', r'', hr''⟩
      · -- the tail of the pattern would have to be a prefix of `/invocations`
        have hpre : t.isPrefixOf invocations = true :=
          isPrefixOf_iff_exists.mpr ⟨r', hr'⟩
        rcases drop_cc_notPre_inv s.length (by omega) with h0 | hfalse
        · omega
        · rw [ht, hpre] at hfalse
          exact absurd hfalse (by decide)
      · -- otherwise `/invocations` would be a substring of the pattern
        have hsub : hasSub invocations chatCompletions = true :=
          hasSub_iff_exists.mpr ⟨s, t', by rw [he, ht', List.append_assoc]⟩
        rw [hasSub_inv_cc] at hsub
        exact absurd hsub (by decide)

/-- A URL ending in `/invocations` does not also end in `/invocations/`,
so only the shorter alternative of the regex can match it. -/
theorem invSlash_not_suffix {r : List Char} :
    invocationsSlash.isSuffixOf (r ++ invocations) = false := by
  cases hcase : invocationsSlash.isSuffixOf (r ++ invocations) with
  | false => rfl
  | true =>
    exfalso
    obtain ⟨w, hw⟩ := isSuffixOf_iff_exists.mp hcase
    have hlen := congrArg List.length hw
    simp only [List.length_append, length_invocations] at hlen
    have hlen13 : invocationsSlash.length = 13 := by decide
    rw [hlen13] at hlen
    have h1 : (r ++ invocations).drop r.length = invocations := List.drop_left r invocations
    have h2 : (r ++ invocations).drop w.length = invocationsSlash := by
      rw [hw]; exact List.drop_left w invocationsSlash
    have key : invocations = invocationsSlash.drop 1 := by
      calc invocations = (r ++ invocations).drop r.length := h1.symm
        _ = (r ++ invocations).drop (w.length + 1) := by
              have : r.length = w.length + 1 := by omega
              rw [this]
        _ = ((r ++ invocations).drop w.length).drop 1 :=
              (List.drop_drop 1 w.length (r ++ invocations)).symm
        _ = invocationsSlash.drop 1 := by rw [h2]
    exact absurd key (by decide)

/-! ### The claims -/

/-- C1.  For every URL string containing `/chat/completions`, the fetch
wrapper replaces exactly the first occurrence with `/invocations` and
leaves every other character unchanged: the URL splits as
`x ++ '/chat/completions' ++ y` around its leftmost occurrence (no
decomposition starts earlier), the rewritten URL is exactly
`x ++ '/invocations' ++ y`, and the wrapper hands precisely that string,
with the caller's options untouched, to the underlying fetch. -/
theorem rewrite_replaces_first_occurrence (u : List Char)
    (h : hasSub chatCompletions u = true) :
    ∃ x y, u = x ++ chatCompletions ++ y ∧
      (∀ x' y', u = x' ++ chatCompletions ++ y' → x.length ≤ x'.length) ∧
      rewriteUrl u = x ++ invocations ++ y ∧
      ∀ init : Option Unit,
        createDatabricksFetch (fun v i => (v, i)) (RequestInfo.str u) init =
          (x ++ invocations ++ y, init) := by
  obtain ⟨x, y, hu, hrw, hmin⟩ :=
    @replaceFirst_decomp chatCompletions invocations u (by decide) h
  refine ⟨x, y, hu, hmin, ?_, ?_⟩
  · simp only [rewriteUrl]
    rw [if_pos h, hrw]
  · intro init
    simp only [createDatabricksFetch, inputToUrl]
    rw [if_pos h, hrw]

/-- Witness for C1 at a concrete URL. -/
theorem rewrite_replaces_first_occurrence_witness :
    hasSub chatCompletions "/api/chat/completions".data = true ∧
    ∃ x y, "/api/chat/completions".data = x ++ chatCompletions ++ y ∧
      (∀ x' y', "/api/chat/completions".data = x' ++ chatCompletions ++ y' →
        x.length ≤ x'.length) ∧
      rewriteUrl "/api/chat/completions".data = x ++ invocations ++ y ∧
      ∀ init : Option Unit,
        createDatabricksFetch (fun v i => (v, i))
          (RequestInfo.str "/api/chat/completions".data) init =
          (x ++ invocations ++ y, init) :=
  ⟨by decide, rewrite_replaces_first_occurrence _ (by decide)⟩

/-- C2.  `createDatabricksProvider` normalizes the base URL by removing a
trailing `/invocations` or `/invocations/` when present and leaves every
other base URL unchanged; in particular the two example URLs of the spec
behave as stated. -/
theorem cleanBaseURL_normalizes :
    (∀ r : List Char, cleanBaseURL (r ++ invocations) = r) ∧
    (∀ r : List Char, cleanBaseURL (r ++ invocationsSlash) = r) ∧
    (∀ b : List Char, invocations.isSuffixOf b = false →
      invocationsSlash.isSuffixOf b = false → cleanBaseURL b = b) ∧
    (createDatabricksProvider
      { baseURL := "https://host/serving-endpoints/m/invocations".data,
        apiKey := "key".data }).baseURL = "https://host/serving-endpoints/m".data ∧
    (createDatabricksProvider
      { baseURL := "https://host/serving-endpoints/m".data,
        apiKey := "key".data }).baseURL = "https://host/serving-endpoints/m".data := by
  refine ⟨fun r => ?_, fun r => ?_, fun b h1 h2 => ?_, by decide, by decide⟩
  · simp only [cleanBaseURL]
    rw [if_neg (by rw [invSlash_not_suffix]; decide),
      if_pos (isSuffixOf_iff_exists.mpr ⟨r, rfl⟩)]
    have hl : (r ++ invocations).length - invocations.length = r.length := by
      simp [List.length_append]
    rw [hl, List.take_left]
  · simp only [cleanBaseURL]
    rw [if_pos (isSuffixOf_iff_exists.mpr ⟨r, rfl⟩)]
    have hl : (r ++ invocationsSlash).length - invocationsSlash.length = r.length := by
      simp [List.length_append]
    rw [hl, List.take_left]
  · simp only [cleanBaseURL]
    rw [if_neg (by rw [h2]; decide), if_neg (by rw [h1]; decide)]

/-- Witness for C2: the hypotheses of its third conjunct hold at a
concrete base URL. -/
theorem cleanBaseURL_normalizes_witness :
    cleanBaseURL ("https://h/sp/m".data ++ invocations) = "https://h/sp/m".data ∧
    cleanBaseURL ("https://h/sp/m".data ++ invocationsSlash) = "https://h/sp/m".data ∧
    (invocations.isSuffixOf "https://h/sp/m".data = false ∧
      invocationsSlash.isSuffixOf "https://h/sp/m".data = false ∧
      cleanBaseURL "https://h/sp/m".data = "https://h/sp/m".data) :=
  ⟨cleanBaseURL_normalizes.1 _, cleanBaseURL_normalizes.2.1 _,
    by decide, by decide, cleanBaseURL_normalizes.2.2.1 _ (by decide) (by decide)⟩

/-- C3, counterexample.  The rewrite is not idempotent as claimed: on a URL
containing two occurrences of `/chat/completions` the first application
replaces only the first occurrence, and a second application changes the
result again. -/
theorem rewrite_not_idempotent_two_occurrences :
    rewriteUrl (rewriteUrl "/chat/completions/chat/completions".data) ≠
      rewriteUrl "/chat/completions/chat/completions".data := by decide

/-- C3, amended.  For every URL string containing at most one occurrence
of `/chat/completions`, applying the rewrite twice yields the same result
as applying it once. -/
theorem rewrite_idempotent_of_single_occurrence (u : List Char)
    (h : countSub chatCompletions u ≤ 1) :
    rewriteUrl (rewriteUrl u) = rewriteUrl u := by
  by_cases hc : hasSub chatCompletions u = true
  · obtain ⟨x, y, hu, hrw, -⟩ :=
      @replaceFirst_decomp chatCompletions invocations u (by decide) hc
    have hcount := @countSub_of_decomp chatCompletions x y u (by decide) hu
    have hx : countSub chatCompletions x = 0 := by omega
    have hy : countSub chatCompletions y = 0 := by omega
    have hres : rewriteUrl u = x ++ invocations ++ y := by
      simp only [rewriteUrl]; rw [if_pos hc, hrw]
    have hno := no_occurrence_after_rewrite hx hy
    rw [hres]
    simp only [rewriteUrl]
    rw [if_neg (by rw [hno]; decide)]
  · have hres : rewriteUrl u = u := by
      simp only [rewriteUrl]; rw [if_neg hc]
    rw [hres, hres]

/-- Witness for the amended C3 at a concrete URL with one occurrence. -/
theorem rewrite_idempotent_of_single_occurrence_witness :
    countSub chatCompletions "/m/chat/completions".data ≤ 1 ∧
    rewriteUrl (rewriteUrl "/m/chat/completions".data) =
      rewriteUrl "/m/chat/completions".data :=
  ⟨by decide, rewrite_idempotent_of_single_occurrence _ (by decide)⟩

/-- C4.  For every request target and options, the fetch wrapper issues
exactly one underlying call: its behaviour is one application of the
underlying fetch, at the rewritten URL string of the target, with the
options passed through unchanged — witnessed for every underlying fetch
`f`, and, with an instrumented fetch that records its calls, by the
recorded call list being the singleton of the rewritten URL and the
caller's options. -/
theorem fetch_single_call_frame {Init Resp : Type}
    (f : List Char → Option Init → Resp) (input : RequestInfo) (init : Option Init) :
    createDatabricksFetch f input init = f (rewriteUrl (inputToUrl input)) init ∧
    (createDatabricksFetch (fun u i => ([(u, i)], ())) input init).1 =
      [(rewriteUrl (inputToUrl input), init)] := by
  cases input <;> exact ⟨rfl, rfl⟩

/-- C7.  For every URL string not containing `/chat/completions`, the
wrapper passes the string to the underlying fetch completely unchanged. -/
theorem rewrite_no_occurrence_unchanged (u : List Char)
    (h : hasSub chatCompletions u = false) :
    rewriteUrl u = u ∧
    ∀ init : Option Unit,
      createDatabricksFetch (fun v i => (v, i)) (RequestInfo.str u) init = (u, init) := by
  constructor
  · simp only [rewriteUrl]; rw [if_neg (by rw [h]; decide)]
  · intro init
    simp only [createDatabricksFetch, inputToUrl]
    rw [if_neg (by rw [h]; decide)]

/-- Witness for C7 at a concrete URL. -/
theorem rewrite_no_occurrence_unchanged_witness :
    hasSub chatCompletions "/api/embeddings".data = false ∧
    (rewriteUrl "/api/embeddings".data = "/api/embeddings".data ∧
      ∀ init : Option Unit,
        createDatabricksFetch (fun v i => (v, i))
          (RequestInfo.str "/api/embeddings".data) init =
          ("/api/embeddings".data, init)) :=
  ⟨by decide, rewrite_no_occurrence_unchanged _ (by decide)⟩

/-- C8.  Whatever error the underlying fetch produces is returned by the
wrapper unchanged, for any target and options: the wrapper catches
nothing, retries nothing and substitutes nothing. -/
theorem fetch_error_propagation {Init Resp E : Type}
    (f : List Char → Option Init → Except E Resp)
    (input : RequestInfo) (init : Option Init) (e : E)
    (h : f (rewriteUrl (inputToUrl input)) init = Except.error e) :
    createDatabricksFetch f input init = Except.error e := by
  cases input <;> exact h

/-- Witness for C8 with a concrete failing fetch. -/
theorem fetch_error_propagation_witness :
    (fun (_ : List Char) (_ : Option Unit) => (Except.error 7 : Except Nat Unit))
        (rewriteUrl (inputToUrl (RequestInfo.str "https://h/x".data))) none =
      Except.error 7 ∧
    createDatabricksFetch
        (fun (_ : List Char) (_ : Option Unit) => (Except.error 7 : Except Nat Unit))
        (RequestInfo.str "https://h/x".data) none = Except.error 7 :=
  ⟨rfl, fetch_error_propagation _ _ _ _ rfl⟩

/-- C5.  When `API_KEY` is unset or empty the environment-based factory
returns a synchronous configuration error whose message mentions
`API_KEY` and constructs no provider; when `API_KEY` is set and non-empty
but `BASE_URL` is unset or empty, it likewise fails with a message
mentioning `BASE_URL`. -/
theorem fromEnv_missing_config_error (env : Env) (name : Option (List Char)) :
    ((env.API_KEY = none ∨ env.API_KEY = some []) →
      ∃ msg, createDatabricksProviderFromEnv env name = Except.error msg ∧
        hasSub "API_KEY".data msg = true) ∧
    ((∃ k, env.API_KEY = some k ∧ k ≠ []) →
      (env.BASE_URL = none ∨ env.BASE_URL = some []) →
      ∃ msg, createDatabricksProviderFromEnv env name = Except.error msg ∧
        hasSub "BASE_URL".data msg = true) := by
  constructor
  · rintro (hnone | hempty)
    · exact ⟨"API_KEY environment variable is required".data,
        by simp [createDatabricksProviderFromEnv, hnone], by decide⟩
    · exact ⟨"API_KEY environment variable is required".data,
        by simp [createDatabricksProviderFromEnv, hempty], by decide⟩
  · rintro ⟨k, hk, hkne⟩ (hnone | hempty)
    · exact ⟨"BASE_URL environment variable is required".data,
        by simp [createDatabricksProviderFromEnv, hk, hkne, hnone], by decide⟩
    · exact ⟨"BASE_URL environment variable is required".data,
        by simp [createDatabricksProviderFromEnv, hk, hkne, hempty], by decide⟩

/-- Witness for C5: one environment missing `API_KEY`, one missing
`BASE_URL`. -/
theorem fromEnv_missing_config_error_witness :
    (∃ msg, createDatabricksProviderFromEnv ⟨none, some "u".data⟩ none =
        Except.error msg ∧ hasSub "API_KEY".data msg = true) ∧
    ∃ msg, createDatabricksProviderFromEnv ⟨some "k".data, none⟩ none =
        Except.error msg ∧ hasSub "BASE_URL".data msg = true :=
  ⟨(fromEnv_missing_config_error ⟨none, some "u".data⟩ none).1 (Or.inl rfl),
    (fromEnv_missing_config_error ⟨some "k".data, none⟩ none).2
      ⟨"k".data, rfl, by decide⟩ (Or.inl rfl)⟩

/-- C6.  With both variables set to non-empty values, the environment
based factory returns exactly the provider built by
`createDatabricksProvider` from those values: same normalized base URL,
API key, name, headers and fetch transport. -/
theorem fromEnv_delegates (k b : List Char) (name : Option (List Char))
    (hk : k ≠ []) (hb : b ≠ []) :
    createDatabricksProviderFromEnv ⟨some k, some b⟩ name =
      Except.ok (createDatabricksProvider
        { baseURL := b, apiKey := k, headers := none, name := name }) := by
  simp [createDatabricksProviderFromEnv, hk, hb]

/-- Witness for C6 at concrete environment values. -/
theorem fromEnv_delegates_witness :
    createDatabricksProviderFromEnv
        ⟨some "secret".data, some "https://h/sp/m".data⟩ none =
      Except.ok (createDatabricksProvider
        { baseURL := "https://h/sp/m".data, apiKey := "secret".data,
          headers := none, name := none }) :=
  fromEnv_delegates _ _ none (by decide) (by decide)

/-- C9.  The provider name passed to the external factory is
`'databricks'` when the config's name is unset, and the configured name
when it is a non-empty string. -/
theorem provider_name_default (config : DatabricksProviderConfig) :
    (config.name = none →
      (createDatabricksProvider config).name = "databricks".data) ∧
    ∀ n, config.name = some n → n ≠ [] →
      (createDatabricksProvider config).name = n := by
  constructor
  · intro h; simp [createDatabricksProvider, h]
  · intro n h hn; simp [createDatabricksProvider, h, hn]

/-- Witness for C9: an unset name and a custom name. -/
theorem provider_name_default_witness :
    (createDatabricksProvider { baseURL := "b".data, apiKey := "a".data }).name =
      "databricks".data ∧
    (createDatabricksProvider
      { baseURL := "b".data, apiKey := "a".data,
        name := some "custom".data }).name = "custom".data :=
  ⟨(provider_name_default _).1 rfl,
    (provider_name_default _).2 "custom".data rfl (by decide)⟩

/-- C10.  A name set to the empty string is replaced by the default
`'databricks'`, exactly as if the name were unset: JavaScript
`config.name || 'databricks'` treats `''` as falsy. -/
theorem provider_name_empty_default (config : DatabricksProviderConfig)
    (h : config.name = some []) :
    (createDatabricksProvider config).name = "databricks".data ∧
    (createDatabricksProvider config).name =
      (createDatabricksProvider { config with name := none }).name := by
  constructor <;> simp [createDatabricksProvider, h]

/-- Witness for C10 at a concrete config with an empty name. -/
theorem provider_name_empty_default_witness :
    (createDatabricksProvider
      { baseURL := "b".data, apiKey := "a".data, name := some [] }).name =
        "databricks".data ∧
    (createDatabricksProvider
      { baseURL := "b".data, apiKey := "a".data, name := some [] }).name =
      (createDatabricksProvider
        { baseURL := "b".data, apiKey := "a".data, name := none }).name :=
  provider_name_empty_default _ rfl

end Databricks
